import Mathlib

/-!
Verification development for the SageMind RAG backend
(`backend/app/services/ingestion.py`, `backend/app/services/chat.py`,
`backend/app/api/routes/chat.py`, `backend/app/api/routes/documents.py`,
`backend/app/models/document.py`, `backend/app/models/chat.py`).

Strings are modelled as `List Char`; Python floats as `ℚ`; uuids as their
canonical string form (`List Char`).  External collaborators (the pgvector
distance operator, the OpenAI embedding model, MD5, the Mersenne-Twister
generator, the language model) are parameters of the definitions that call
them, constrained only by their documented contracts.
-/

namespace SageMind

/-! ## Python string primitives -/

/-- The whitespace characters recognised by Python's `str.strip` / regex
`\s` (ASCII range, which covers every character the chunker manipulates). -/
def pyIsSpace (c : Char) : Bool :=
  c = ' ' || c = '\t' || c = '\n' || c = '\r' || c = '\x0b' || c = '\x0c'

/-- Python `s.lstrip()`. -/
def lstrip (s : List Char) : List Char := s.dropWhile pyIsSpace

/-- Python `s.rstrip()`. -/
def rstrip (s : List Char) : List Char := (s.reverse.dropWhile pyIsSpace).reverse

/-- Python `s.strip()`. -/
def strip (s : List Char) : List Char := rstrip (lstrip s)

/-- Python slice `s[-k:]` (for `k = 0` the slice is `s[0:]`, i.e. the whole
string — `-0` is `0` in Python). -/
def pySliceLast (s : List α) (k : Nat) : List α :=
  if k = 0 then s else s.drop (s.length - k)

/-- Python `" ".join(xs)`. -/
def joinSpace : List (List Char) → List Char
  | [] => []
  | [x] => x
  | x :: y :: ys => x ++ ' ' :: joinSpace (y :: ys)

/-- Python `s.split(sep)` for `sep = "\n\n"`: split on non-overlapping
occurrences, leftmost first. -/
def splitOnDoubleNewline : List Char → List (List Char)
  | [] => [[]]
  | '\n' :: '\n' :: rest => [] :: splitOnDoubleNewline rest
  | c :: rest =>
    match splitOnDoubleNewline rest with
    | p :: ps => (c :: p) :: ps
    | [] => [[c]]

/-! ## `TextChunker` (ingestion.py 90-169) -/

/-- `ingestion.py` line 97: `self.chars_per_token = 4`. -/
def chars_per_token : Nat := 4

/-- A sentence-final character, the `[.!?]` of the splitting regex. -/
def isSentenceEnd (c : Char) : Bool := c = '.' || c = '!' || c = '?'

/-- The `[A-Z]` class of the splitting regex. -/
def isUpperAZ (c : Char) : Bool := 'A' ≤ c && c ≤ 'Z'

/-- Head of the accumulated (reversed) piece: the character immediately
before the scanner position, for the `(?<=[.!?])` lookbehind. -/
def prevIsSentenceEnd : List Char → Bool
  | [] => false
  | p :: _ => isSentenceEnd p

/-- `re.split(r'(?<=[.!?])\s+(?=[A-Z])', text)` (ingestion.py line 156),
as a character scanner: a split point is a maximal whitespace run that is
immediately preceded by `.`/`!`/`?` and immediately followed by a capital
letter.  `acc` is the current piece, reversed; `fuel` bounds the recursion
and is adequate whenever `fuel ≥` the length of the remaining input, since
every step consumes at least one character. -/
def regexSplitSentencesAux : Nat → List Char → List Char → List (List Char)
  | 0, acc, _ => [acc.reverse]
  | _ + 1, acc, [] => [acc.reverse]
  | fuel + 1, acc, c :: rest =>
    if pyIsSpace c && prevIsSentenceEnd acc then
      match rest.dropWhile pyIsSpace with
      | d :: rest2 =>
        if isUpperAZ d then acc.reverse :: regexSplitSentencesAux fuel [] (d :: rest2)
        else regexSplitSentencesAux fuel (c :: acc) rest
      | [] => regexSplitSentencesAux fuel (c :: acc) rest
    else regexSplitSentencesAux fuel (c :: acc) rest

/-- `TextChunker._split_into_sentences` (ingestion.py 151-162): the regex
split above, then each piece split on paragraph breaks `"\n\n"`, each
paragraph stripped and dropped when empty. -/
def split_into_sentences (text : List Char) : List (List Char) :=
  (regexSplitSentencesAux text.length [] text).flatMap
    (fun s => ((splitOnDoubleNewline s).map strip).filter (fun p => !p.isEmpty))

/-- `TextChunker._get_overlap_text` (ingestion.py 164-169). -/
def get_overlap_text (chunks : List (List Char)) (max_chars : Nat) : List Char :=
  let combined := joinSpace chunks
  if combined.length ≤ max_chars then combined
  else pySliceLast combined max_chars

/-- One emitted chunk: `{"content": ..., "char_start": ...}`. -/
structure ChunkOut where
  content : List Char
  char_start : Int
deriving DecidableEq

/-- The loop state of `TextChunker.chunk_text` (ingestion.py 113-117). -/
structure ChunkAccState where
  chunks : List ChunkOut
  current_chunk : List (List Char)
  current_length : Nat
  chunk_start : Int
  char_position : Int
deriving DecidableEq

/-- One iteration of the `for sentence in sentences` loop of
`TextChunker.chunk_text` (ingestion.py 119-138). -/
def chunk_step (target_chars overlap_chars : Nat) (st : ChunkAccState)
    (sentence : List Char) : ChunkAccState :=
  let sentence_length := sentence.length
  let st1 :=
    if st.current_length + sentence_length > target_chars ∧ st.current_chunk ≠ [] then
      let ctext := joinSpace st.current_chunk
      let emitted : ChunkOut := { content := strip ctext, char_start := st.chunk_start }
      let overlap_text := get_overlap_text st.current_chunk overlap_chars
      if overlap_text ≠ [] then
        { chunks := st.chunks ++ [emitted]
          current_chunk := [overlap_text]
          current_length := overlap_text.length
          chunk_start := st.char_position - overlap_text.length
          char_position := st.char_position }
      else
        { chunks := st.chunks ++ [emitted]
          current_chunk := []
          current_length := 0
          chunk_start := st.char_position
          char_position := st.char_position }
    else st
  { chunks := st1.chunks
    current_chunk := st1.current_chunk ++ [sentence]
    current_length := st1.current_length + sentence_length + 1
    chunk_start := st1.chunk_start
    char_position := st1.char_position + sentence_length + 1 }

/-- `TextChunker.chunk_text` (ingestion.py 99-149): sentence split, greedy
accumulation against `target_tokens * 4` characters, overlap of
`overlap_tokens * 4` characters carried into the next chunk, final flush. -/
def chunk_text (target_tokens overlap_tokens : Nat) (text : List Char) :
    List ChunkOut :=
  if text = [] ∨ strip text = [] then []
  else
    let target_chars := target_tokens * chars_per_token
    let overlap_chars := overlap_tokens * chars_per_token
    let sentences := split_into_sentences text
    let final := sentences.foldl (chunk_step target_chars overlap_chars) ⟨[], [], 0, 0, 0⟩
    if final.current_chunk ≠ [] then
      let ctext := joinSpace final.current_chunk
      if strip ctext ≠ [] then
        final.chunks ++ [{ content := strip ctext, char_start := final.chunk_start }]
      else final.chunks
    else final.chunks

/-- The claim's overlap window on a stored chunk text: the last
`k` characters of the predecessor, or the whole predecessor when it is
shorter than the window.  Stated from the spec's words, to be compared
with what `chunk_text` actually carries over. -/
def spec_overlap_tail (k : Nat) (s : List Char) : List Char :=
  if s.length ≤ k then s else pySliceLast s k

/-! ## `EmbeddingService._mock_embedding` (ingestion.py 82-87)

`random.seed(int(md5(text).hexdigest(), 16) % 2**32)` followed by
`[random.uniform(-1, 1) for _ in range(dimension)]`.  MD5 and the seeded
Mersenne-Twister stream are Python-library externals: they enter as the
parameters `md5_int` (the hash digest as an integer) and `randu` (the
stream of `random.random()` values for a given seed), and
`random.uniform(-1, 1)` is its documented `a + (b - a) * random()`. -/

def mock_embedding (randu : Nat → Nat → ℚ) (md5_int : List Char → Nat)
    (dimension : Nat) (text : List Char) : List ℚ :=
  let seed := md5_int text % 2 ^ 32
  (List.range dimension).map (fun i => -1 + (1 - (-1)) * randu seed i)

/-! ## Data model rows (models/document.py, models/chat.py) -/

/-- uuids in canonical string form. -/
abbrev UUIDStr := List Char

/-- `MediaType` (models/document.py 15-18). -/
inductive MediaType
  | text
  | table
  | image
deriving DecidableEq

/-- A row of the `chunks` table (models/document.py 38-60), the fields the
retrieval query touches. -/
structure ChunkRec where
  id : UUIDStr
  document_id : UUIDStr
  content : List Char
  vector : Option (List ℚ)
  page_number : Option Int
  media_type : MediaType
deriving DecidableEq

/-- A row of the `documents` table as declared by the `Document` model
(models/document.py 21-35), the fields retrieval touches. -/
structure DocumentRec where
  id : UUIDStr
  original_filename : List Char
deriving DecidableEq

/-- The column names declared on the `Document` model
(models/document.py 24-32).  Note: no `file_hash` column is declared,
although migrations/add_file_hash.py adds one to the database table. -/
def document_model_columns : List (List Char) :=
  [("id").toList, ("filename").toList, ("original_filename").toList,
   ("file_path").toList, ("file_size").toList, ("page_count").toList,
   ("upload_date").toList, ("processed").toList, ("metadata").toList]

/-- A row of the `chat_sessions` table (models/chat.py 27-41): the legacy
`document_ids` ARRAY column and the `documents` many-to-many relationship. -/
structure SessionRec where
  id : UUIDStr
  document_ids : List UUIDStr
  documents : List UUIDStr
deriving DecidableEq

/-- `MessageRole` (models/chat.py 11-14). -/
inductive MessageRole
  | user
  | assistant
  | system
deriving DecidableEq

/-- A row of the `messages` table (models/chat.py 44-58). -/
structure MessageRec where
  session_id : UUIDStr
  role : MessageRole
  content : List Char
  citations : List UUIDStr
deriving DecidableEq

/-! ## `ChatService.retrieve_context` (chat.py 114-195)

The SQL query joins `chunks` to `documents`, keeps rows whose vector is
set, optionally filters `c.document_id IN (...)`, orders ascending by the
pgvector cosine distance `c.vector <=> query_vector` and limits to
`top_k`.  The distance operator is the storage collaborator's; it enters
as the parameter `dist`.  `ORDER BY` promises sortedness only, modelled
with insertion sort. -/

/-- One row of the SQL result set before ordering and limiting. -/
structure JoinedRow where
  chunk : ChunkRec
  doc : DocumentRec
  vec : List ℚ
deriving DecidableEq

/-- The two joined tables. -/
structure RagDB where
  documents : List DocumentRec
  chunks : List ChunkRec

/-- `FROM chunks c JOIN documents d ON c.document_id = d.id WHERE
c.vector IS NOT NULL` (chat.py 148-160). -/
def base_rows (db : RagDB) : List JoinedRow :=
  db.chunks.filterMap (fun c =>
    match c.vector with
    | none => none
    | some v =>
      match db.documents.find? (fun d => decide (d.id = c.document_id)) with
      | none => none
      | some d => some ⟨c, d, v⟩)

/-- The document filter of chat.py 164-167: `AND c.document_id IN (...)`
is appended only when a list was given **and** it is non-empty
(`if document_ids and len(document_ids) > 0`). -/
def scope_pred (document_ids : Option (List UUIDStr)) (r : JoinedRow) : Bool :=
  match document_ids with
  | none => true
  | some ids => if ids.length > 0 then decide (r.chunk.document_id ∈ ids) else true

/-- The rows the similarity query ranges over for a given scope. -/
def eligible_rows (db : RagDB) (document_ids : Option (List UUIDStr)) :
    List JoinedRow :=
  (base_rows db).filter (scope_pred document_ids)

/-- `Settings` (core/config.py): the two fields this development uses,
with their defaults. -/
structure SettingsRec where
  similarity_top_k : Nat
  embedding_dimension : Nat

/-- core/config.py defaults: `similarity_top_k = 5`,
`embedding_dimension = 1536`. -/
def settings : SettingsRec := ⟨5, 1536⟩

/-- A `RetrievedChunk` (chat.py 45-75). -/
structure RetrievedChunkRec where
  chunk_id : UUIDStr
  content : List Char
  similarity : ℚ
  document_id : UUIDStr
  document_name : List Char
  page_number : Option Int
  media_type : MediaType
deriving DecidableEq

/-- Row-to-`RetrievedChunk` conversion (chat.py 178-188);
`float(row.similarity) if row.similarity else 0.0` maps a falsy
(zero/NULL) similarity to `0.0`. -/
def row_to_retrieved (dist : List ℚ → List ℚ → ℚ) (query_embedding : List ℚ)
    (r : JoinedRow) : RetrievedChunkRec :=
  let sim := 1 - dist query_embedding r.vec
  { chunk_id := r.chunk.id
    content := r.chunk.content
    similarity := if sim = 0 then 0 else sim
    document_id := r.chunk.document_id
    document_name := r.doc.original_filename
    page_number := r.chunk.page_number
    media_type := r.chunk.media_type }

/-- `ChatService.retrieve_context` (chat.py 114-195).  `top_k?` is the
optional argument, defaulted to `settings.similarity_top_k`; `embed` is
`EmbeddingService.generate_embedding`. -/
def retrieve_context (dist : List ℚ → List ℚ → ℚ) (embed : List Char → List ℚ)
    (db : RagDB) (query : List Char) (top_k? : Option Nat)
    (document_ids : Option (List UUIDStr)) : List RetrievedChunkRec :=
  let top_k := top_k?.getD settings.similarity_top_k
  let query_embedding := embed query
  let sorted := List.insertionSort
    (fun a b : JoinedRow => dist query_embedding a.vec ≤ dist query_embedding b.vec)
    (eligible_rows db document_ids)
  (sorted.take top_k).map (row_to_retrieved dist query_embedding)

/-! ## `ChatService.extract_citations` (chat.py 230-248) and the citation
validation of `ChatService.generate_response` (chat.py 293-301) -/

/-- A hex digit as accepted by the citation pattern `[a-f0-9]` compiled
with `re.IGNORECASE`. -/
def isHexDigitPy (c : Char) : Bool :=
  ('0' ≤ c && c ≤ '9') || ('a' ≤ c && c ≤ 'f') || ('A' ≤ c && c ≤ 'F')

/-- Match exactly `n` hex digits, returning them and the rest. -/
def takeHexN : Nat → List Char → Option (List Char × List Char)
  | 0, s => some ([], s)
  | _ + 1, [] => none
  | n + 1, c :: s =>
    if isHexDigitPy c then
      (takeHexN n s).map (fun gr => (c :: gr.1, gr.2))
    else none

/-- Match `-` followed by exactly `n` hex digits. -/
def takeDashHexN (n : Nat) : List Char → Option (List Char × List Char)
  | '-' :: s => (takeHexN n s).map (fun gr => ('-' :: gr.1, gr.2))
  | _ => none

/-- Try the citation pattern
`\[\[([a-f0-9]{8}-[a-f0-9]{4}-[a-f0-9]{4}-[a-f0-9]{4}-[a-f0-9]{12})\]\]`
at the start of `s`; on success return the captured group and the input
remaining after the closing `]]`. -/
def matchCitationAt : List Char → Option (List Char × List Char)
  | '[' :: '[' :: s0 =>
    match takeHexN 8 s0 with
    | none => none
    | some (g1, s1) =>
      match takeDashHexN 4 s1 with
      | none => none
      | some (g2, s2) =>
        match takeDashHexN 4 s2 with
        | none => none
        | some (g3, s3) =>
          match takeDashHexN 4 s3 with
          | none => none
          | some (g4, s4) =>
            match takeDashHexN 12 s4 with
            | none => none
            | some (g5, s5) =>
              match s5 with
              | ']' :: ']' :: s6 => some (g1 ++ g2 ++ g3 ++ g4 ++ g5, s6)
              | _ => none
  | _ => none

/-- `re.findall` of the citation pattern: scan left to right, collect
non-overlapping matches, resume after each match.  `fuel` bounds the
recursion and is adequate for `fuel ≥` input length, since every step
consumes at least one character. -/
def findCitationMatches : Nat → List Char → List (List Char)
  | 0, _ => []
  | _ + 1, [] => []
  | fuel + 1, c :: rest =>
    match matchCitationAt (c :: rest) with
    | some (g, rest2) => g :: findCitationMatches fuel rest2
    | none => findCitationMatches fuel rest

/-- `uuid.UUID(match)` on a string already in 8-4-4-4-12 hex form never
raises and normalises to lowercase. -/
def uuidCanon (g : List Char) : UUIDStr := g.map Char.toLower

/-- The de-duplication loop of `extract_citations` (chat.py 237-248):
keep first occurrences, preserve order. -/
def dedupFirstSeen : List UUIDStr → List UUIDStr → List UUIDStr
  | _, [] => []
  | seen, x :: xs =>
    if x ∈ seen then dedupFirstSeen seen xs
    else x :: dedupFirstSeen (x :: seen) xs

/-- `ChatService.extract_citations` (chat.py 230-248). -/
def extract_citations (response_text : List Char) : List UUIDStr :=
  dedupFirstSeen []
    ((findCitationMatches response_text.length response_text).map uuidCanon)

/-- The citation validation of `generate_response` (chat.py 293-295):
`valid_chunk_ids = {chunk.chunk_id for chunk in retrieved_chunks}`;
`valid_citations = [c for c in citations if c in valid_chunk_ids]`.
Invalid markers are dropped, only logged (chat.py 297-298), never an
error. -/
def validate_citations (citations : List UUIDStr)
    (retrieved_chunks : List RetrievedChunkRec) : List UUIDStr :=
  citations.filter (fun c => decide (c ∈ retrieved_chunks.map (fun ch => ch.chunk_id)))

/-! ## `ChatService.chat` (chat.py 307-368) as a state machine on the
message store

The user turn is committed first; then context is retrieved and a
response generated.  Retrieval (an embedding call plus the similarity
query, chat.py 174-195 re-raises any failure) and generation (the
language-model call, chat.py 285-305 re-raises any failure) are external
effects; they enter as `Except`-valued outcomes.  On any failure the
exception propagates to the caller with the database in the state left by
the last commit. -/

/-- The committed message store. -/
structure ChatDB where
  messages : List MessageRec
deriving DecidableEq

/-- The user's turn as `ChatService.chat` persists it (chat.py 325-331). -/
def mk_user_message (session_id : UUIDStr) (user_message : List Char) : MessageRec :=
  { session_id := session_id, role := .user, content := user_message, citations := [] }

/-- `session.messages` minus the just-added user turn, last ten
(chat.py 334-337): the session's messages as they were before the add. -/
def chat_history_of (db0 : ChatDB) (session : SessionRec) : List MessageRec :=
  pySliceLast (db0.messages.filter (fun m => decide (m.session_id = session.id))) 10

/-- `ChatService.chat` (chat.py 307-368).  Returns the message store and
either the persisted assistant turn or the propagated error. -/
def chat_service_chat (db0 : ChatDB) (session : SessionRec) (user_message : List Char)
    (retrieve_outcome : Except (List Char) (List RetrievedChunkRec))
    (generate_outcome : List MessageRec → List RetrievedChunkRec →
      Except (List Char) (List Char × List UUIDStr)) :
    ChatDB × Except (List Char) MessageRec :=
  let user_msg := mk_user_message session.id user_message
  let db1 : ChatDB := ⟨db0.messages ++ [user_msg]⟩
  let chat_history := chat_history_of db0 session
  match retrieve_outcome with
  | .error e => (db1, .error e)
  | .ok retrieved_chunks =>
    match generate_outcome chat_history retrieved_chunks with
    | .error e => (db1, .error e)
    | .ok (response_text, citations) =>
      let assistant_msg : MessageRec :=
        { session_id := session.id, role := .assistant,
          content := response_text, citations := citations }
      (⟨db1.messages ++ [assistant_msg]⟩, .ok assistant_msg)

/-! ## `send_message` (routes/chat.py 137-226) -/

/-- A `ChatRequest` (schemas/chat.py). -/
structure ChatRequestRec where
  message : List Char
  session_id : Option UUIDStr
  attach_document_ids : List UUIDStr
  filter_document_id : Option UUIDStr
deriving DecidableEq

/-- The attach step of `send_message` (routes/chat.py 167-174): each
requested document that exists and is not yet attached is appended to
`session.documents`. -/
def attach_documents (existing_docs : List UUIDStr) (session : SessionRec)
    (req : ChatRequestRec) : SessionRec :=
  { session with documents := session.documents ++
      (req.attach_document_ids.filter
        (fun d => decide (d ∈ existing_docs) && !session.documents.contains d)) }

/-- The scope resolution of `send_message` (routes/chat.py 176-186):
`filter_document_id` wins, else the session's attached documents, else no
filter. -/
def search_document_ids (req : ChatRequestRec) (session : SessionRec) :
    Option (List UUIDStr) :=
  match req.filter_document_id with
  | some fid => some [fid]
  | none => if session.documents ≠ [] then some session.documents else none

/-- The parameters `ChatService.chat` declares (chat.py 307-312). -/
def chat_method_params : List (List Char) :=
  [("session").toList, ("user_message").toList, ("db").toList]

/-- The keyword arguments `send_message` passes to `chat_service.chat`
(routes/chat.py 191-196). -/
def send_message_chat_kwargs : List (List Char) :=
  [("session").toList, ("user_message").toList, ("db").toList,
   ("document_ids").toList]

/-- Python call semantics: the call raises `TypeError` unless every
keyword argument names a declared parameter. -/
def send_message_chat_call_ok : Bool :=
  send_message_chat_kwargs.all (fun k => k ∈ chat_method_params)

/-- The scope `ChatService.chat` itself hands to `retrieve_context`
(chat.py 340-344): the legacy `session.document_ids` column, or no filter
when that list is empty/None. -/
def chat_service_scope (session : SessionRec) : Option (List UUIDStr) :=
  if session.document_ids ≠ [] then some session.document_ids else none

/-! ## `upload_document` (routes/documents.py 49-129) -/

/-- Python runtime errors the upload path can raise. -/
inductive PyError
  | attributeError (attr : List Char)
deriving DecidableEq

/-- What a completed upload reports. -/
structure UploadOutcome where
  result_id : UUIDStr
  created_new : Bool
  temp_file_deleted : Bool
  new_chunk_rows : Nat
deriving DecidableEq

/-- A row of the `documents` database table, which does carry a
`file_hash` column (added by migrations/add_file_hash.py). -/
structure StoredDocRow where
  id : UUIDStr
  file_hash : List Char
deriving DecidableEq

/-- The dedup-then-create logic of `upload_document`
(routes/documents.py 84-109) after the bytes are saved and hashed:
`db.query(Document).filter(Document.file_hash == file_hash).first()` —
evaluating `Document.file_hash` raises `AttributeError` unless the model
declares that column; on a hit the temp file is unlinked and the existing
record returned with no new rows; on a miss a new `Document` is inserted. -/
def upload_document_dedup (store : List StoredDocRow) (new_id : UUIDStr)
    (file_hash : List Char) : Except PyError UploadOutcome :=
  if ("file_hash").toList ∈ document_model_columns then
    match store.find? (fun r => decide (r.file_hash = file_hash)) with
    | some existing =>
      .ok { result_id := existing.id, created_new := false,
            temp_file_deleted := true, new_chunk_rows := 0 }
    | none =>
      .ok { result_id := new_id, created_new := true,
            temp_file_deleted := false, new_chunk_rows := 0 }
  else .error (.attributeError (("file_hash").toList))

/-! ## Concrete instances used by witnesses and counterexamples -/

/-- A concrete distance function standing in for the pgvector operator. -/
def distSq : List ℚ → List ℚ → ℚ :=
  fun v w => ((v.zip w).map (fun p => (p.1 - p.2) * (p.1 - p.2))).sum

/-- A concrete embedding function standing in for
`EmbeddingService.generate_embedding`. -/
def embed0 : List Char → List ℚ := fun _ => [0]

/-- A concrete stored document. -/
def docA : DocumentRec := ⟨("docA").toList, ("a.pdf").toList⟩

/-- A concrete stored chunk of `docA`, with its vector set. -/
def chunkA : ChunkRec :=
  ⟨("chunkA").toList, ("docA").toList, ("hello world").toList, some [1], none, .text⟩

/-- A one-document, one-chunk store. -/
def dbEx : RagDB := ⟨[docA], [chunkA]⟩

/-- A concrete `random.random()` stream: constantly `1/2`. -/
def randu_half : Nat → Nat → ℚ := fun _ _ => 1 / 2

/-- A concrete digest function. -/
def md5_zero : List Char → Nat := fun _ => 0

/-- A chat request carrying an explicit single-document filter. -/
def req_c2 : ChatRequestRec :=
  ⟨("What is X?").toList, some (("sess1").toList), [], some (("docF").toList)⟩

/-- A session with one attached document and an empty legacy
`document_ids` column. -/
def sess_c2 : SessionRec := ⟨("sess1").toList, [], [("docA").toList]⟩

/-- A generation outcome that fails. -/
def go_err : List MessageRec → List RetrievedChunkRec →
    Except (List Char) (List Char × List UUIDStr) :=
  fun _ _ => .error (("model down").toList)

/-- The input exhibiting the chunk-overlap counterexample. -/
def overlap_cx_text : List Char := ("Abcdef. Xy. Zw.").toList

/-! ## Invariants used to verify `chunk_text` -/

/-- What `_split_into_sentences` guarantees of every sentence it returns:
non-empty, no leading whitespace, no trailing whitespace. -/
def GoodSentence (s : List Char) : Prop :=
  s ≠ [] ∧ (∀ c, s.head? = some c → pyIsSpace c = false) ∧
    (∀ c, s.getLast? = some c → pyIsSpace c = false)

/-- What every element of the chunker's `current_chunk` satisfies (a
sentence, or an overlap slice): non-empty and ending in non-whitespace. -/
def GoodPiece (s : List Char) : Prop :=
  s ≠ [] ∧ (∀ c, s.getLast? = some c → pyIsSpace c = false)

/-- The amended overlap relation between consecutive stored chunks: the
successor begins with the predecessor's overlap tail after removing its
leading whitespace (the `strip()` applied when the successor is stored
removes exactly that). -/
def overlap_link (k : Nat) (a b : ChunkOut) : Prop :=
  lstrip (spec_overlap_tail k a.content) <+: b.content

/-- Loop invariant of `chunk_text` for the overlap property, at overlap
window `k`. -/
def chunkInvC5 (k : Nat) (st : ChunkAccState) : Prop :=
  List.Chain' (overlap_link k) st.chunks ∧
  (st.current_chunk = [] → st.chunks = []) ∧
  (∀ e ∈ st.current_chunk, GoodPiece e) ∧
  (∀ h ∈ st.current_chunk.head?, ∀ ch ∈ st.chunks.getLast?,
      lstrip (spec_overlap_tail k ch.content) = lstrip h)

/-- Loop invariant of `chunk_text` for the sentence-boundary property:
every stored chunk ends with a sentence of `SS`, the last accumulated
piece is a sentence of `SS`, and every element of the accumulator is a
good piece. -/
def chunkInvC6 (SS : List (List Char)) (st : ChunkAccState) : Prop :=
  (∀ ch ∈ st.chunks, ∃ s, s ∈ SS ∧ s ≠ [] ∧ s <:+ ch.content) ∧
  (∀ l ∈ st.current_chunk.getLast?, l ∈ SS ∧ GoodSentence l) ∧
  (∀ e ∈ st.current_chunk, GoodPiece e)

/-- A sentence has been placed: it is an infix of an emitted chunk, or it
still sits in the accumulator. -/
def PlacedIn (st : ChunkAccState) (s : List Char) : Prop :=
  (∃ ch, ch ∈ st.chunks ∧ s <:+: ch.content) ∨ s ∈ st.current_chunk

/-! # Theorems -/

/-! ## Retrieval (claims C3, C4, C10) -/

theorem ite_zero_self (q : ℚ) : (if q = 0 then 0 else q) = q := by
  by_cases h : q = 0 <;> simp [h]

/-- C10: calling retrieval with an empty document-scope list behaves
identically to calling it with no scope at all — the guard
`if document_ids and len(document_ids) > 0` skips the filter in both
cases, so the results coincide for every store, query and limit. -/
theorem retrieve_context_empty_scope_eq_no_scope :
    ∀ (dist : List ℚ → List ℚ → ℚ) (embed : List Char → List ℚ) (db : RagDB)
      (query : List Char) (top_k? : Option Nat),
    retrieve_context dist embed db query top_k? (some []) =
      retrieve_context dist embed db query top_k? none := by
  intro dist embed db query top_k?
  have h : scope_pred (some ([] : List UUIDStr)) = scope_pred none := by
    funext r
    simp [scope_pred]
  simp [retrieve_context, eligible_rows, h]

/-- C4: retrieval returns at most `top_k` results (the requested limit, or
the configured default when none is requested), and the similarity scores
are non-increasing from the first element to the last. -/
theorem retrieve_context_bounded_and_sorted :
    ∀ (dist : List ℚ → List ℚ → ℚ) (embed : List Char → List ℚ) (db : RagDB)
      (query : List Char) (top_k? : Option Nat)
      (document_ids : Option (List UUIDStr)),
    (retrieve_context dist embed db query top_k? document_ids).length ≤
        top_k?.getD settings.similarity_top_k ∧
    List.Pairwise (fun a b : RetrievedChunkRec => b.similarity ≤ a.similarity)
      (retrieve_context dist embed db query top_k? document_ids) := by
  intro dist embed db query top_k? document_ids
  constructor
  · simp only [retrieve_context, List.length_map]
    exact List.length_take_le _ _
  · have hpw :
        List.Pairwise
          (fun a b : JoinedRow =>
            dist (embed query) a.vec ≤ dist (embed query) b.vec)
          (List.insertionSort
            (fun a b : JoinedRow =>
              dist (embed query) a.vec ≤ dist (embed query) b.vec)
            (eligible_rows db document_ids)) := by
      haveI : IsTotal JoinedRow
          (fun a b : JoinedRow =>
            dist (embed query) a.vec ≤ dist (embed query) b.vec) :=
        ⟨fun a b => le_total _ _⟩
      haveI : IsTrans JoinedRow
          (fun a b : JoinedRow =>
            dist (embed query) a.vec ≤ dist (embed query) b.vec) :=
        ⟨fun _ _ _ hab hbc => le_trans hab hbc⟩
      exact List.sorted_insertionSort _ _
    have htake := hpw.sublist (List.take_sublist (top_k?.getD settings.similarity_top_k) _)
    simp only [retrieve_context, List.pairwise_map]
    refine htake.imp ?_
    intro a b hab
    simp only [row_to_retrieved, ite_zero_self]
    exact sub_le_sub_left hab 1

/-- C3: when retrieval is given a non-empty document scope, every returned
unit belongs to a document in that scope; when no scope is given, the
filter is skipped and every stored unit with a vector is eligible. -/
theorem retrieve_context_respects_scope :
    ∀ (dist : List ℚ → List ℚ → ℚ) (embed : List Char → List ℚ) (db : RagDB)
      (query : List Char) (top_k? : Option Nat) (ids : List UUIDStr),
    ids ≠ [] →
    (∀ rc ∈ retrieve_context dist embed db query top_k? (some ids),
        rc.document_id ∈ ids) ∧
    eligible_rows db none = base_rows db := by
  intro dist embed db query top_k? ids hids
  constructor
  · intro rc hrc
    simp only [retrieve_context, List.mem_map] at hrc
    obtain ⟨row, hrow, hconv⟩ := hrc
    have hmem : row ∈ eligible_rows db (some ids) := by
      have h1 := List.mem_of_mem_take hrow
      exact ((List.perm_insertionSort _ _).mem_iff).mp h1
    have hpred : scope_pred (some ids) row = true := (List.mem_filter.mp hmem).2
    have hpos : ids.length > 0 := by
      cases ids with
      | nil => exact absurd rfl hids
      | cons a as => exact Nat.succ_pos _
    rw [scope_pred, if_pos hpos] at hpred
    have hdoc : row.chunk.document_id ∈ ids := of_decide_eq_true hpred
    rw [← hconv]
    exact hdoc
  · simp [eligible_rows, scope_pred]

/-- Witness for C3 at a concrete store: scope `{docA}` is non-empty, and
the one returned unit's document is `docA`. -/
theorem retrieve_context_respects_scope_witness :
    (row_to_retrieved distSq (embed0 (("q").toList)) ⟨chunkA, docA, [1]⟩).document_id ∈
      [("docA").toList] :=
  (retrieve_context_respects_scope distSq embed0 dbEx (("q").toList) none
      [("docA").toList] (by decide)).1 _ (by
    simp [retrieve_context, eligible_rows, base_rows, scope_pred, dbEx, chunkA, docA,
      List.insertionSort, settings, embed0])

/-! ## Citation extraction and validation (claim C1) -/

theorem dedupFirstSeen_nodup :
    ∀ (xs : List UUIDStr) (seen : List UUIDStr),
    (dedupFirstSeen seen xs).Nodup ∧
      ∀ y ∈ dedupFirstSeen seen xs, y ∉ seen := by
  intro xs
  induction xs with
  | nil => intro seen; exact ⟨List.nodup_nil, by intro y hy; cases hy⟩
  | cons x xs ih =>
    intro seen
    by_cases hx : x ∈ seen
    · rw [dedupFirstSeen, if_pos hx]
      exact ih seen
    · rw [dedupFirstSeen, if_neg hx]
      obtain ⟨hnd, hns⟩ := ih (x :: seen)
      refine ⟨List.nodup_cons.mpr ⟨?_, hnd⟩, ?_⟩
      · intro hxin
        exact (hns x hxin) (List.mem_cons_self x seen)
      · intro y hy hysn
        rcases List.mem_cons.mp hy with h | h
        · exact hx (h ▸ hysn)
        · exact (hns y h) (List.mem_cons_of_mem _ hysn)

theorem extract_citations_nodup (response_text : List Char) :
    (extract_citations response_text).Nodup :=
  (dedupFirstSeen_nodup _ []).1

/-- C1: the stored citation list of an assistant turn is exactly the
extracted identifiers that belong to the retrieved set `R`, kept in
first-seen order: membership is extraction-membership plus retrieval-set
membership, the stored list is a sublist of the extracted list (order
preserved, extras dropped without error), and it repeats no identifier. -/
theorem stored_citations_exactly_validated :
    ∀ (response_text : List Char) (retrieved : List RetrievedChunkRec),
    (∀ c : UUIDStr,
        c ∈ validate_citations (extract_citations response_text) retrieved ↔
          (c ∈ extract_citations response_text ∧
            c ∈ retrieved.map (fun ch => ch.chunk_id))) ∧
    (validate_citations (extract_citations response_text) retrieved).Sublist
      (extract_citations response_text) ∧
    (validate_citations (extract_citations response_text) retrieved).Nodup := by
  intro response_text retrieved
  refine ⟨?_, ?_, ?_⟩
  · intro c
    constructor
    · intro hc
      have := List.mem_filter.mp hc
      exact ⟨this.1, of_decide_eq_true this.2⟩
    · intro ⟨h1, h2⟩
      exact List.mem_filter.mpr ⟨h1, decide_eq_true h2⟩
  · exact List.filter_sublist _
  · exact (extract_citations_nodup response_text).sublist (List.filter_sublist _)

/-! ## Mock embedding (claim C7) -/

/-- C7: the mock embedding is a pure function of the input text and the
configured dimension — two calls, in one process or across processes,
return the very same vector — of length exactly `dimension`, and, given
the `random.random()` contract (values in `[0, 1)`), every entry lies in
`[-1, 1]`. -/
theorem mock_embedding_deterministic_and_bounded :
    ∀ (randu : Nat → Nat → ℚ) (md5_int : List Char → Nat) (dimension : Nat)
      (text : List Char),
    (∀ s i, 0 ≤ randu s i ∧ randu s i < 1) →
    (mock_embedding randu md5_int dimension text).length = dimension ∧
    (∀ x ∈ mock_embedding randu md5_int dimension text, -1 ≤ x ∧ x ≤ 1) ∧
    mock_embedding randu md5_int dimension text =
      mock_embedding randu md5_int dimension text := by
  intro randu md5_int dimension text hrand
  refine ⟨by simp [mock_embedding], ?_, rfl⟩
  intro x hx
  simp only [mock_embedding, List.mem_map] at hx
  obtain ⟨i, _, hxi⟩ := hx
  obtain ⟨h0, h1⟩ := hrand (md5_int text % 2 ^ 32) i
  constructor
  · rw [← hxi]; linarith
  · rw [← hxi]; linarith

/-- Witness for C7: the constant-`1/2` stream satisfies the
`random.random()` contract, and a three-dimensional mock embedding has
length three. -/
theorem mock_embedding_witness :
    (mock_embedding randu_half md5_zero 3 (("abc").toList)).length = 3 :=
  (mock_embedding_deterministic_and_bounded randu_half md5_zero 3 (("abc").toList)
      (fun _ _ => by norm_num [randu_half])).1

/-! ## Scope precedence at the chat route (claim C2) -/

/-- C2 (code bug): `send_message` resolves the scope with the claimed
precedence (here: an explicit filter wins over the session's attached
document), but the call `chat_service.chat(..., document_ids=...)` names a
keyword `ChatService.chat` does not declare, so every request dies with a
`TypeError` (surfaced as HTTP 500); and `ChatService.chat` itself scopes
retrieval by the legacy `session.document_ids` column, which here is
empty, so the scope it would use is `None` — not the resolved
`[filter_document_id]`. -/
theorem send_message_scope_precedence_broken :
    send_message_chat_call_ok = false ∧
    search_document_ids req_c2 sess_c2 = some [("docF").toList] ∧
    chat_service_scope sess_c2 = none ∧
    search_document_ids req_c2 sess_c2 ≠ chat_service_scope sess_c2 := by
  decide

/-! ## Upload deduplication (claim C9) -/

/-- C9 (code bug): the dedup lookup
`db.query(Document).filter(Document.file_hash == file_hash)` evaluates
`Document.file_hash`, but the `Document` model declares no such column
(the migration adds it to the table only), so every upload — in
particular a byte-identical duplicate — raises `AttributeError` instead
of returning the already-stored document. -/
theorem upload_document_dedup_always_raises :
    ∀ (store : List StoredDocRow) (new_id : UUIDStr) (file_hash : List Char),
    upload_document_dedup store new_id file_hash =
      .error (.attributeError (("file_hash").toList)) := by
  intro store new_id file_hash
  rw [upload_document_dedup, if_neg (by decide)]

/-! ## Turn persistence and failure surfacing (claim C8) -/

/-- C8: `ChatService.chat` persists the user's turn before retrieval and
generation begin — whatever the outcomes, the store extends
`db0.messages ++ [user turn]` — and when retrieval or generation fails the
error is surfaced to the caller while the store still holds exactly the
prior messages plus the user turn (nothing rolled back or deleted). -/
theorem chat_turn_persistence :
    ∀ (db0 : ChatDB) (session : SessionRec) (user_message : List Char)
      (retrieve_outcome : Except (List Char) (List RetrievedChunkRec))
      (generate_outcome : List MessageRec → List RetrievedChunkRec →
        Except (List Char) (List Char × List UUIDStr)),
    ((db0.messages ++ [mk_user_message session.id user_message]) <+:
        (chat_service_chat db0 session user_message retrieve_outcome
          generate_outcome).1.messages) ∧
    (∀ e, retrieve_outcome = .error e →
        chat_service_chat db0 session user_message retrieve_outcome
            generate_outcome =
          (⟨db0.messages ++ [mk_user_message session.id user_message]⟩, .error e)) ∧
    (∀ chunks e, retrieve_outcome = .ok chunks →
        generate_outcome (chat_history_of db0 session) chunks = .error e →
        chat_service_chat db0 session user_message retrieve_outcome
            generate_outcome =
          (⟨db0.messages ++ [mk_user_message session.id user_message]⟩, .error e)) := by
  intro db0 session user_message retrieve_outcome generate_outcome
  refine ⟨?_, ?_, ?_⟩
  · cases hro : retrieve_outcome with
    | error e => exact ⟨[], by simp [chat_service_chat, hro]⟩
    | ok chunks =>
      cases hgo : generate_outcome (chat_history_of db0 session) chunks with
      | error e => exact ⟨[], by simp [chat_service_chat, hro, hgo]⟩
      | ok pair =>
        refine ⟨[{ session_id := session.id, role := .assistant,
                   content := pair.1, citations := pair.2 }], ?_⟩
        simp [chat_service_chat, hro, hgo]
  · intro e hro
    simp [chat_service_chat, hro]
  · intro chunks e hro hgo
    simp [chat_service_chat, hro, hgo]

/-- Witness for C8: with an empty store, a successful (empty) retrieval
and a failing generation, the user turn is persisted and the error
surfaced. -/
theorem chat_turn_persistence_witness :
    chat_service_chat ⟨[]⟩ sess_c2 (("hi").toList) (.ok []) go_err =
      (⟨[mk_user_message sess_c2.id (("hi").toList)]⟩,
        .error (("model down").toList)) :=
  (chat_turn_persistence ⟨[]⟩ sess_c2 (("hi").toList) (.ok []) go_err).2.2 [] _ rfl rfl

/-! ## Whitespace and strip toolkit for the chunker proofs -/

theorem lstrip_eq_nil_iff (s : List Char) :
    lstrip s = [] ↔ ∀ c ∈ s, pyIsSpace c = true := List.dropWhile_eq_nil_iff

theorem rstrip_eq_nil_iff (s : List Char) :
    rstrip s = [] ↔ ∀ c ∈ s, pyIsSpace c = true := by
  rw [rstrip, List.reverse_eq_nil_iff, List.dropWhile_eq_nil_iff]
  constructor
  · intro h c hc; exact h c (List.mem_reverse.mpr hc)
  · intro h c hc; exact h c (List.mem_reverse.mp hc)

theorem strip_eq_nil_iff (s : List Char) :
    strip s = [] ↔ ∀ c ∈ s, pyIsSpace c = true := by
  rw [strip, rstrip_eq_nil_iff]
  constructor
  · intro h c hc
    have hs : c ∈ List.takeWhile pyIsSpace s ++ List.dropWhile pyIsSpace s := by
      rw [List.takeWhile_append_dropWhile]; exact hc
    rcases List.mem_append.mp hs with h1 | h2
    · exact List.mem_takeWhile_imp h1
    · exact h c h2
  · intro h c hc
    have hs : c ∈ List.takeWhile pyIsSpace s ++ List.dropWhile pyIsSpace s :=
      List.mem_append_right _ hc
    rw [List.takeWhile_append_dropWhile] at hs
    exact h c hs

theorem dropWhile_head_not (p : Char → Bool) (l : List Char) :
    ∀ c, (l.dropWhile p).head? = some c → p c = false := by
  induction l with
  | nil => intro c h; simp at h
  | cons x xs ih =>
    intro c h
    rw [List.dropWhile_cons] at h
    by_cases hx : p x = true
    · rw [if_pos hx] at h; exact ih c h
    · rw [if_neg hx] at h
      simp only [List.head?_cons, Option.some.injEq] at h
      rw [← h]
      exact Bool.eq_false_iff.mpr hx

theorem lstrip_head_not (s : List Char) :
    ∀ c, (lstrip s).head? = some c → pyIsSpace c = false :=
  dropWhile_head_not pyIsSpace s

theorem rstrip_last_not (x : List Char) :
    ∀ c, (rstrip x).getLast? = some c → pyIsSpace c = false := by
  intro c hc
  rw [rstrip, List.getLast?_reverse] at hc
  exact dropWhile_head_not pyIsSpace x.reverse c hc

theorem dropWhile_suffix_ex (p : Char → Bool) (l : List Char) :
    ∃ t, t ++ l.dropWhile p = l :=
  ⟨List.takeWhile p l, List.takeWhile_append_dropWhile p l⟩

theorem rstrip_head_eq (s : List Char) (h : rstrip s ≠ []) :
    (rstrip s).head? = s.head? := by
  obtain ⟨t, ht⟩ := dropWhile_suffix_ex pyIsSpace s.reverse
  have hs : rstrip s ++ t.reverse = s := by
    rw [rstrip]
    calc (s.reverse.dropWhile pyIsSpace).reverse ++ t.reverse
        = (t ++ s.reverse.dropWhile pyIsSpace).reverse := by
          rw [List.reverse_append]
      _ = s.reverse.reverse := by rw [ht]
      _ = s := List.reverse_reverse s
  conv_rhs => rw [← hs]
  rw [List.head?_append_of_ne_nil _ h]

theorem rstrip_eq_self_of_last (s : List Char)
    (h : ∀ c, s.getLast? = some c → pyIsSpace c = false) : rstrip s = s := by
  rw [rstrip]
  cases hr : s.reverse with
  | nil =>
    rw [List.reverse_eq_nil_iff] at hr
    simp [hr]
  | cons c t =>
    have hc : s.getLast? = some c := by
      rw [← List.head?_reverse, hr]; rfl
    rw [List.dropWhile_cons, h c hc]
    simp only [Bool.false_eq_true, if_false]
    rw [← hr, List.reverse_reverse]

theorem lstrip_eq_self_of_head (s : List Char)
    (h : ∀ c, s.head? = some c → pyIsSpace c = false) : lstrip s = s := by
  cases s with
  | nil => rfl
  | cons c t =>
    rw [lstrip, List.dropWhile_cons, h c rfl]
    simp

theorem strip_eq_lstrip_of_last (z : List Char)
    (h : ∀ c, z.getLast? = some c → pyIsSpace c = false) : strip z = lstrip z := by
  rw [strip]
  apply rstrip_eq_self_of_last
  intro c hc
  obtain ⟨t, ht⟩ := dropWhile_suffix_ex pyIsSpace z
  apply h
  rw [lstrip] at hc
  rw [← ht, List.getLast?_append, hc]
  rfl

theorem lstrip_append_allspace (A s : List Char)
    (h : ∀ c ∈ A, pyIsSpace c = true) : lstrip (A ++ s) = lstrip s := by
  induction A with
  | nil => rfl
  | cons c t ih =>
    rw [List.cons_append, lstrip, List.dropWhile_cons, h c (List.mem_cons_self c t)]
    rw [if_pos rfl]
    exact ih (fun x hx => h x (List.mem_cons_of_mem _ hx))

theorem lstrip_append_of_last :
    ∀ (h t : List Char), h ≠ [] →
    (∀ c, h.getLast? = some c → pyIsSpace c = false) →
    lstrip (h ++ t) = lstrip h ++ t := by
  intro h
  induction h with
  | nil => intro t hne _; exact absurd rfl hne
  | cons c h' ih =>
    intro t _ hl
    cases h' with
    | nil =>
      have hc : pyIsSpace c = false := hl c rfl
      simp [lstrip, List.dropWhile_cons, hc]
    | cons d h'' =>
      have hl' : ∀ e, (d :: h'').getLast? = some e → pyIsSpace e = false := by
        intro e he
        exact hl e (by rw [List.getLast?_cons_cons]; exact he)
      by_cases hsp : pyIsSpace c = true
      · have h1 : lstrip ((c :: d :: h'') ++ t) = lstrip ((d :: h'') ++ t) := by
          rw [List.cons_append, lstrip, List.dropWhile_cons, if_pos hsp]; rfl
        have h2 : lstrip (c :: d :: h'') = lstrip (d :: h'') := by
          rw [lstrip, List.dropWhile_cons, if_pos hsp]; rfl
        rw [h1, h2]
        exact ih t (by simp) hl'
      · have h1 : lstrip ((c :: d :: h'') ++ t) = (c :: d :: h'') ++ t := by
          rw [List.cons_append, lstrip, List.dropWhile_cons, if_neg hsp]
        have h2 : lstrip (c :: d :: h'') = c :: d :: h'' := by
          rw [lstrip, List.dropWhile_cons, if_neg hsp]
        rw [h1, h2]

theorem suffix_lstrip_append :
    ∀ (pre s : List Char), s ≠ [] →
    (∀ c, s.head? = some c → pyIsSpace c = false) →
    ∃ u, lstrip (pre ++ s) = u ++ s := by
  intro pre
  induction pre with
  | nil =>
    intro s _ hh
    exact ⟨[], by rw [List.nil_append, lstrip_eq_self_of_head s hh]⟩
  | cons c pre' ih =>
    intro s hs hh
    by_cases hsp : pyIsSpace c = true
    · have h1 : lstrip ((c :: pre') ++ s) = lstrip (pre' ++ s) := by
        rw [List.cons_append, lstrip, List.dropWhile_cons, if_pos hsp]; rfl
      rw [h1]
      exact ih s hs hh
    · have h1 : lstrip ((c :: pre') ++ s) = (c :: pre') ++ s := by
        rw [List.cons_append, lstrip, List.dropWhile_cons, if_neg hsp]
      exact ⟨c :: pre', h1⟩

theorem infix_lstrip_of_head :
    ∀ (p s q z : List Char), s ≠ [] →
    (∀ c, s.head? = some c → pyIsSpace c = false) →
    z = p ++ (s ++ q) → s <:+: lstrip z := by
  intro p
  induction p with
  | nil =>
    intro s q z hs hh hz
    rw [hz, List.nil_append]
    have heq : lstrip (s ++ q) = s ++ q := by
      apply lstrip_eq_self_of_head
      intro c hc
      rw [List.head?_append_of_ne_nil s hs] at hc
      exact hh c hc
    rw [heq]
    exact ⟨[], q, rfl⟩
  | cons c p' ih =>
    intro s q z hs hh hz
    by_cases hsp : pyIsSpace c = true
    · have h1 : lstrip z = lstrip (p' ++ (s ++ q)) := by
        rw [hz, List.cons_append, lstrip, List.dropWhile_cons, if_pos hsp]; rfl
      rw [h1]
      exact ih s q _ hs hh rfl
    · have h1 : lstrip z = c :: (p' ++ (s ++ q)) := by
        rw [hz, List.cons_append, lstrip, List.dropWhile_cons, if_neg hsp]
      rw [h1]
      exact ⟨c :: p', q, by simp⟩

theorem infix_strip_of_good (s z : List Char) (hgs : GoodSentence s)
    (hinf : s <:+: z) : s <:+: strip z := by
  obtain ⟨hne, hh, hl⟩ := hgs
  obtain ⟨p, q, hz⟩ := hinf
  have h1 : s <:+: lstrip z :=
    infix_lstrip_of_head p s q z hne hh (by rw [← hz, List.append_assoc])
  have h2 : s.reverse <:+: (lstrip z).reverse := List.reverse_infix.mpr h1
  obtain ⟨p2, q2, hz2⟩ := h2
  have hsrev_ne : s.reverse ≠ [] := by simpa using hne
  have hsrev_h : ∀ c, s.reverse.head? = some c → pyIsSpace c = false := by
    intro c hc; rw [List.head?_reverse] at hc; exact hl c hc
  have h3 : s.reverse <:+: lstrip ((lstrip z).reverse) :=
    infix_lstrip_of_head p2 s.reverse q2 _ hsrev_ne hsrev_h
      (by rw [← hz2, List.append_assoc])
  have h4 : strip z = (lstrip ((lstrip z).reverse)).reverse := rfl
  rw [h4]
  have h5 := List.reverse_infix.mpr h3
  rw [List.reverse_reverse] at h5
  exact h5

/-! ## `joinSpace` toolkit -/

theorem joinSpace_cons_cons (x y : List Char) (ys : List (List Char)) :
    joinSpace (x :: y :: ys) = x ++ ' ' :: joinSpace (y :: ys) := rfl

theorem joinSpace_head_ex (x : List Char) (rest : List (List Char)) :
    ∃ t, joinSpace (x :: rest) = x ++ t := by
  cases rest with
  | nil => exact ⟨[], by simp [joinSpace]⟩
  | cons y ys => exact ⟨' ' :: joinSpace (y :: ys), rfl⟩

theorem joinSpace_snoc (xs : List (List Char)) (s : List Char) (h : xs ≠ []) :
    joinSpace (xs ++ [s]) = joinSpace xs ++ ' ' :: s := by
  induction xs with
  | nil => exact absurd rfl h
  | cons x xs ih =>
    cases xs with
    | nil => rfl
    | cons y ys =>
      have hih := ih (by simp)
      show joinSpace (x :: y :: (ys ++ [s])) = joinSpace (x :: y :: ys) ++ ' ' :: s
      rw [joinSpace_cons_cons, joinSpace_cons_cons]
      have h2 : joinSpace (y :: (ys ++ [s])) = joinSpace (y :: ys) ++ ' ' :: s := hih
      rw [h2]
      simp

theorem joinSpace_snoc_ex (xs : List (List Char)) (s : List Char) :
    ∃ pre, joinSpace (xs ++ [s]) = pre ++ s := by
  cases hx : xs with
  | nil => exact ⟨[], by simp [joinSpace]⟩
  | cons a as =>
    refine ⟨joinSpace (a :: as) ++ [' '], ?_⟩
    rw [← hx, joinSpace_snoc xs s (by rw [hx]; simp)]
    rw [hx]
    simp

theorem joinSpace_last (xs : List (List Char)) (hne : xs ≠ [])
    (hgood : ∀ e ∈ xs, GoodPiece e) :
    joinSpace xs ≠ [] ∧
    (∀ c, (joinSpace xs).getLast? = some c → pyIsSpace c = false) := by
  rcases List.eq_nil_or_concat xs with h | ⟨ys, l, hdecomp⟩
  · exact absurd h hne
  · rw [List.concat_eq_append] at hdecomp
    have hl : GoodPiece l := hgood l (by rw [hdecomp]; simp)
    obtain ⟨pre, hpre⟩ := joinSpace_snoc_ex ys l
    rw [hdecomp, hpre]
    constructor
    · exact List.append_ne_nil_of_right_ne_nil pre hl.1
    · intro c hc
      rw [List.getLast?_append] at hc
      cases hlast : l.getLast? with
      | none => exact absurd (List.getLast?_eq_none_iff.mp hlast) hl.1
      | some d =>
        rw [hlast] at hc
        simp only [Option.or_some, Option.some.injEq] at hc
        rw [← hc]
        exact hl.2 d hlast

theorem infix_of_mem_joinSpace :
    ∀ (xs : List (List Char)) (e : List Char), e ∈ xs → e <:+: joinSpace xs := by
  intro xs
  induction xs with
  | nil => intro e he; cases he
  | cons x rest ih =>
    intro e he
    rcases List.mem_cons.mp he with h | h
    · subst h
      obtain ⟨t, ht⟩ := joinSpace_head_ex e rest
      exact ⟨[], t, by rw [ht]; rfl⟩
    · cases rest with
      | nil => cases h
      | cons y ys =>
        have hinf := ih e h
        have hstep : joinSpace (y :: ys) <:+: joinSpace (x :: y :: ys) :=
          ⟨x ++ [' '], [], by simp [joinSpace]⟩
        exact hinf.trans hstep

/-! ## What `_split_into_sentences` returns -/

theorem strip_good (p : List Char) (hne : strip p ≠ []) : GoodSentence (strip p) := by
  refine ⟨hne, ?_, ?_⟩
  · intro c hc
    have hh : (strip p).head? = (lstrip p).head? := rstrip_head_eq (lstrip p) hne
    rw [hh] at hc
    exact lstrip_head_not p c hc
  · intro c hc
    exact rstrip_last_not (lstrip p) c hc

theorem split_into_sentences_good (text : List Char) :
    ∀ s ∈ split_into_sentences text, GoodSentence s := by
  intro s hs
  rw [split_into_sentences, List.mem_flatMap] at hs
  obtain ⟨piece, _, hmem⟩ := hs
  rw [List.mem_filter] at hmem
  obtain ⟨hmap, hne⟩ := hmem
  rw [List.mem_map] at hmap
  obtain ⟨p, _, hp⟩ := hmap
  have hsne : s ≠ [] := by
    intro h; rw [h] at hne; simp at hne
  rw [← hp] at hsne ⊢
  exact strip_good p hsne

/-! ## The overlap carried by a flush versus the spec's overlap tail -/

theorem getLast_mem_of_eq_some (z : List Char) (c : Char)
    (h : z.getLast? = some c) : c ∈ z := by
  obtain ⟨hne, hc⟩ := List.mem_getLast?_eq_getLast (show c ∈ z.getLast? from h)
  rw [hc]
  exact List.getLast_mem hne

/-- The leading-whitespace-stripped overlap text computed by
`_get_overlap_text` at a flush equals the leading-whitespace-stripped
overlap tail (in the spec's sense) of the chunk stored by that flush; and
the overlap text is a good piece (non-empty, ends in non-whitespace). -/
theorem overlap_tail_eq (cur : List (List Char)) (k : Nat) (hne : cur ≠ [])
    (hgood : ∀ e ∈ cur, GoodPiece e) :
    lstrip (spec_overlap_tail k (strip (joinSpace cur))) =
      lstrip (get_overlap_text cur k) ∧
    GoodPiece (get_overlap_text cur k) := by
  obtain ⟨hzne, hzlast⟩ := joinSpace_last cur hne hgood
  set z := joinSpace cur with hz
  have hstrip : strip z = lstrip z := strip_eq_lstrip_of_last z hzlast
  have hdecomp : List.takeWhile pyIsSpace z ++ lstrip z = z :=
    List.takeWhile_append_dropWhile pyIsSpace z
  have hWspace : ∀ c ∈ List.takeWhile pyIsSpace z, pyIsSpace c = true :=
    fun c hc => List.mem_takeWhile_imp hc
  have hstored_ne : lstrip z ≠ [] := by
    intro h0
    have hall : ∀ c ∈ z, pyIsSpace c = true := (lstrip_eq_nil_iff z).mp h0
    cases hzl : z.getLast? with
    | none => exact hzne (List.getLast?_eq_none_iff.mp hzl)
    | some c =>
      have hcz : c ∈ z := getLast_mem_of_eq_some z c hzl
      have h1 := hzlast c hzl
      rw [hall c hcz] at h1
      exact Bool.true_eq_false.mp h1
  have hstored_head : ∀ c, (lstrip z).head? = some c → pyIsSpace c = false :=
    lstrip_head_not z
  have hstored_lstrip : lstrip (lstrip z) = lstrip z :=
    lstrip_eq_self_of_head _ hstored_head
  have hstored_last : ∀ c, (lstrip z).getLast? = some c → pyIsSpace c = false := by
    intro c hc
    apply hzlast
    rw [← hdecomp, List.getLast?_append, hc]
    rfl
  have hlen : z.length = (List.takeWhile pyIsSpace z).length + (lstrip z).length := by
    conv_lhs => rw [← hdecomp]
    rw [List.length_append]
  have hstored_pos : 0 < (lstrip z).length := List.length_pos.mpr hstored_ne
  simp only [get_overlap_text, ← hz]
  by_cases hA : z.length ≤ k
  · rw [if_pos hA]
    refine ⟨?_, hzne, hzlast⟩
    rw [hstrip, spec_overlap_tail, if_pos (by omega)]
    exact hstored_lstrip
  · rw [if_neg hA]
    have hgoodDrop : ∀ n, n < z.length → GoodPiece (z.drop n) := by
      intro n hn
      have hlen2 : (z.drop n).length = z.length - n := List.length_drop n z
      have hdne : z.drop n ≠ [] := List.ne_nil_of_length_pos (by omega)
      refine ⟨hdne, ?_⟩
      intro c hc
      obtain ⟨u, hu⟩ := List.drop_suffix n z
      apply hzlast
      rw [← hu, List.getLast?_append, hc]
      rfl
    by_cases hk : k = 0
    · subst hk
      rw [pySliceLast, if_pos rfl]
      refine ⟨?_, hzne, hzlast⟩
      rw [hstrip, spec_overlap_tail, if_neg (by omega), pySliceLast, if_pos rfl]
      exact hstored_lstrip
    · rw [pySliceLast, if_neg hk]
      refine ⟨?_, hgoodDrop (z.length - k) (by omega)⟩
      by_cases hC : k ≤ (lstrip z).length
      · have hsplit := @List.drop_append_eq_append_drop _
          (List.takeWhile pyIsSpace z) (lstrip z) (z.length - k)
        rw [hdecomp] at hsplit
        have h1 : (List.takeWhile pyIsSpace z).drop (z.length - k) = [] :=
          List.drop_eq_nil_iff.mpr (by omega)
        have h2 : z.length - k - (List.takeWhile pyIsSpace z).length =
            (lstrip z).length - k := by omega
        rw [h1, List.nil_append, h2] at hsplit
        rw [hsplit, hstrip, spec_overlap_tail]
        by_cases hEq : (lstrip z).length ≤ k
        · rw [if_pos hEq]
          have h3 : (lstrip z).length - k = 0 := by omega
          rw [h3, List.drop_zero]
        · rw [if_neg hEq, pySliceLast, if_neg hk]
      · have hsplit := @List.drop_append_eq_append_drop _
          (List.takeWhile pyIsSpace z) (lstrip z) (z.length - k)
        rw [hdecomp] at hsplit
        have h1 : z.length - k - (List.takeWhile pyIsSpace z).length = 0 := by omega
        rw [h1, List.drop_zero] at hsplit
        rw [hsplit, hstrip, spec_overlap_tail, if_pos (by omega)]
        rw [lstrip_append_allspace _ _
          (fun c hc => hWspace c (List.drop_subset _ _ hc))]

/-- The chunk stored by a flush begins with the leading-whitespace-strip
of the first accumulated piece. -/
theorem strip_join_head (cur : List (List Char)) (h0 : List Char)
    (hh : cur.head? = some h0) (hgood : ∀ e ∈ cur, GoodPiece e) :
    ∃ t, strip (joinSpace cur) = lstrip h0 ++ t := by
  cases cur with
  | nil => simp at hh
  | cons x rest =>
    have hx0 : x = h0 := by simpa using hh
    subst hx0
    obtain ⟨t0, ht0⟩ := joinSpace_head_ex x rest
    have hlast := joinSpace_last (x :: rest) (by simp) hgood
    have hstrip : strip (joinSpace (x :: rest)) = lstrip (joinSpace (x :: rest)) :=
      strip_eq_lstrip_of_last _ hlast.2
    have hgx : GoodPiece x := hgood x (by simp)
    rw [hstrip, ht0, lstrip_append_of_last x t0 hgx.1 hgx.2]
    exact ⟨t0, rfl⟩

/-! ## The two branches of a `chunk_text` loop iteration -/

theorem chunk_step_no_flush (tc k : Nat) (st : ChunkAccState) (s : List Char)
    (h : ¬(st.current_length + s.length > tc ∧ st.current_chunk ≠ [])) :
    chunk_step tc k st s =
      { chunks := st.chunks
        current_chunk := st.current_chunk ++ [s]
        current_length := st.current_length + s.length + 1
        chunk_start := st.chunk_start
        char_position := st.char_position + s.length + 1 } := by
  simp only [chunk_step, if_neg h]

theorem chunk_step_flush (tc k : Nat) (st : ChunkAccState) (s : List Char)
    (hcond : st.current_length + s.length > tc ∧ st.current_chunk ≠ [])
    (hov : get_overlap_text st.current_chunk k ≠ []) :
    chunk_step tc k st s =
      { chunks := st.chunks ++
          [{ content := strip (joinSpace st.current_chunk), char_start := st.chunk_start }]
        current_chunk := [get_overlap_text st.current_chunk k, s]
        current_length := (get_overlap_text st.current_chunk k).length + s.length + 1
        chunk_start := st.char_position - (get_overlap_text st.current_chunk k).length
        char_position := st.char_position + s.length + 1 } := by
  simp only [chunk_step, if_pos hcond, if_pos hov, List.singleton_append]

/-! ## Claim C5: the chunk-overlap invariant -/

theorem chunk_step_inv_c5 (tc k : Nat) (st : ChunkAccState) (s : List Char)
    (hs : GoodSentence s) (hinv : chunkInvC5 k st) :
    chunkInvC5 k (chunk_step tc k st s) := by
  obtain ⟨hchain, hempty, hpieces, hlink⟩ := hinv
  by_cases hcond : st.current_length + s.length > tc ∧ st.current_chunk ≠ []
  · have hov := overlap_tail_eq st.current_chunk k hcond.2 hpieces
    have hovne : get_overlap_text st.current_chunk k ≠ [] := hov.2.1
    rw [chunk_step_flush tc k st s hcond hovne]
    obtain ⟨h0, hh0⟩ : ∃ h0, st.current_chunk.head? = some h0 := by
      cases hcc : st.current_chunk with
      | nil => exact absurd hcc hcond.2
      | cons a l => exact ⟨a, rfl⟩
    obtain ⟨t, ht⟩ := strip_join_head st.current_chunk h0 hh0 hpieces
    refine ⟨?_, ?_, ?_, ?_⟩
    · rw [List.chain'_append]
      refine ⟨hchain, List.chain'_singleton _, ?_⟩
      intro x hx y hy
      simp only [List.head?_cons, Option.mem_def, Option.some.injEq] at hy
      subst hy
      have hlk := hlink h0 (by rw [Option.mem_def, hh0]) x hx
      rw [overlap_link]
      show lstrip (spec_overlap_tail k x.content) <+:
        strip (joinSpace st.current_chunk)
      rw [ht, hlk]
      exact ⟨t, rfl⟩
    · intro hfalse; simp at hfalse
    · intro e he
      rcases List.mem_cons.mp he with h | h
      · rw [h]; exact hov.2
      · have : e = s := by simpa using h
        rw [this]; exact ⟨hs.1, hs.2.2⟩
    · intro h hhd ch hch
      simp only [Option.mem_def, List.head?_cons, Option.some.injEq] at hhd
      simp only [Option.mem_def, List.getLast?_concat, Option.some.injEq] at hch
      subst hhd
      subst hch
      exact hov.1
  · rw [chunk_step_no_flush tc k st s hcond]
    refine ⟨hchain, ?_, ?_, ?_⟩
    · intro h
      exact absurd h (by simp)
    · intro e he
      rcases List.mem_append.mp he with h | h
      · exact hpieces e h
      · have : e = s := by simpa using h
        rw [this]; exact ⟨hs.1, hs.2.2⟩
    · intro h hhd ch hch
      cases hcc : st.current_chunk with
      | nil =>
        rw [hempty hcc] at hch
        simp [Option.mem_def] at hch
      | cons a l =>
        rw [Option.mem_def, hcc, List.cons_append, List.head?_cons] at hhd
        have hha : a = h := by simpa using hhd
        apply hlink h
        · rw [Option.mem_def, hcc, List.head?_cons, hha]
        · exact hch

theorem chunk_fold_inv_c5 (tc k : Nat) :
    ∀ (ss : List (List Char)) (st : ChunkAccState),
    (∀ s ∈ ss, GoodSentence s) → chunkInvC5 k st →
    chunkInvC5 k (ss.foldl (chunk_step tc k) st) := by
  intro ss
  induction ss with
  | nil => intro st _ hinv; exact hinv
  | cons s ss ih =>
    intro st hgood hinv
    rw [List.foldl_cons]
    exact ih _ (fun x hx => hgood x (List.mem_cons_of_mem _ hx))
      (chunk_step_inv_c5 tc k st s (hgood s (List.mem_cons_self _ _)) hinv)

/-- C5 (amended): in every chunking, each chunk after the first begins
with the *leading-whitespace-stripped* overlap tail of its predecessor
(the last `overlap_tokens * 4` characters of the predecessor's stored
text, or the whole predecessor when shorter).  The raw byte-for-byte
version of the claim fails because the stored successor is `strip()`ed,
see the counterexample. -/
theorem chunk_overlap_amended (tt ot : Nat) (text : List Char) :
    List.Chain' (overlap_link (ot * chars_per_token)) (chunk_text tt ot text) := by
  simp only [chunk_text]
  by_cases hguard : text = [] ∨ strip text = []
  · rw [if_pos hguard]; exact List.chain'_nil
  · rw [if_neg hguard]
    have hsent := split_into_sentences_good text
    have hinv0 : chunkInvC5 (ot * chars_per_token) ⟨[], [], 0, 0, 0⟩ := by
      refine ⟨List.chain'_nil, fun _ => rfl, by simp, ?_⟩
      intro h hhd
      simp [Option.mem_def] at hhd
    have hfold := chunk_fold_inv_c5 (tt * chars_per_token) (ot * chars_per_token)
      (split_into_sentences text) ⟨[], [], 0, 0, 0⟩ hsent hinv0
    obtain ⟨hchain, hempty, hpieces, hlink⟩ := hfold
    by_cases hcur : ((split_into_sentences text).foldl
        (chunk_step (tt * chars_per_token) (ot * chars_per_token))
        ⟨[], [], 0, 0, 0⟩).current_chunk ≠ []
    · rw [if_pos hcur]
      by_cases hstripne : strip (joinSpace ((split_into_sentences text).foldl
          (chunk_step (tt * chars_per_token) (ot * chars_per_token))
          ⟨[], [], 0, 0, 0⟩).current_chunk) ≠ []
      · rw [if_pos hstripne]
        rw [List.chain'_append]
        refine ⟨hchain, List.chain'_singleton _, ?_⟩
        intro x hx y hy
        simp only [List.head?_cons, Option.mem_def, Option.some.injEq] at hy
        subst hy
        obtain ⟨h0, hh0⟩ : ∃ h0, ((split_into_sentences text).foldl
            (chunk_step (tt * chars_per_token) (ot * chars_per_token))
            ⟨[], [], 0, 0, 0⟩).current_chunk.head? = some h0 := by
          cases hcc : ((split_into_sentences text).foldl
              (chunk_step (tt * chars_per_token) (ot * chars_per_token))
              ⟨[], [], 0, 0, 0⟩).current_chunk with
          | nil => exact absurd hcc hcur
          | cons a l => exact ⟨a, rfl⟩
        obtain ⟨t, ht⟩ := strip_join_head _ h0 hh0 hpieces
        have hlk := hlink h0 (by rw [Option.mem_def, hh0]) x hx
        rw [overlap_link]
        show lstrip (spec_overlap_tail (ot * chars_per_token) x.content) <+: _
        rw [ht, hlk]
        exact ⟨t, rfl⟩
      · rw [if_neg hstripne]; exact hchain
    · rw [if_neg hcur]; exact hchain

/-- Counterexample to C5 as stated: chunking `"Abcdef. Xy. Zw."` with
`target_tokens = 2`, `overlap_tokens = 1` (window 4 characters) stores
chunks `"Abcdef."`, `"def. Xy."`, `"Xy. Zw."`; the overlap tail of the
second chunk is `" Xy."` (its last four characters), but the third chunk
begins `"Xy. "` — the `strip()` applied at storage removed the leading
space, so the byte-for-byte prefix match fails. -/
theorem chunk_overlap_counterexample :
    (chunk_text 2 1 overlap_cx_text).map (fun c => c.content) =
      [("Abcdef.").toList, ("def. Xy.").toList, ("Xy. Zw.").toList] ∧
    spec_overlap_tail (1 * chars_per_token) (("def. Xy.").toList) = (" Xy.").toList ∧
    ¬ List.Chain'
        (fun a b : ChunkOut =>
          spec_overlap_tail (1 * chars_per_token) a.content <+: b.content)
        (chunk_text 2 1 overlap_cx_text) := by
  refine ⟨by decide, by decide, ?_⟩
  intro hchain
  have hlist : chunk_text 2 1 overlap_cx_text =
      [⟨("Abcdef.").toList, 0⟩, ⟨("def. Xy.").toList, 4⟩,
       ⟨("Xy. Zw.").toList, 8⟩] := by decide
  rw [hlist] at hchain
  have h23 := (List.chain'_cons.mp (List.chain'_cons.mp hchain).2).1
  revert h23
  decide

/-! ## Claim C6: sentence boundaries -/

theorem space_not_sentence_end (c : Char) (h : pyIsSpace c = true) :
    isSentenceEnd c = false := by
  simp only [pyIsSpace, Bool.or_eq_true, decide_eq_true_eq] at h
  rcases h with ((((h | h) | h) | h) | h) | h <;> subst h <;> rfl

theorem regexSplit_allspace :
    ∀ (fuel : Nat) (acc rest : List Char),
    (∀ c ∈ acc, pyIsSpace c = true) → (∀ c ∈ rest, pyIsSpace c = true) →
    ∀ p ∈ regexSplitSentencesAux fuel acc rest, ∀ c ∈ p, pyIsSpace c = true := by
  intro fuel
  induction fuel with
  | zero =>
    intro acc rest hacc _ p hp c hcp
    simp only [regexSplitSentencesAux, List.mem_singleton] at hp
    subst hp
    exact hacc c (List.mem_reverse.mp hcp)
  | succ n ih =>
    intro acc rest hacc hrest p hp c hcp
    cases rest with
    | nil =>
      simp only [regexSplitSentencesAux, List.mem_singleton] at hp
      subst hp
      exact hacc c (List.mem_reverse.mp hcp)
    | cons r rs =>
      have hcond : (pyIsSpace r && prevIsSentenceEnd acc) = false := by
        cases acc with
        | nil => simp [prevIsSentenceEnd]
        | cons a as =>
          have ha : pyIsSpace a = true := hacc a (List.mem_cons_self a as)
          simp [prevIsSentenceEnd, space_not_sentence_end a ha]
      rw [regexSplitSentencesAux, if_neg (by simp [hcond])] at hp
      have hacc2 : ∀ x ∈ r :: acc, pyIsSpace x = true := by
        intro x hx
        rcases List.mem_cons.mp hx with h | h
        · subst h; exact hrest x (List.mem_cons_self x rs)
        · exact hacc x h
      have hrs2 : ∀ x ∈ rs, pyIsSpace x = true :=
        fun x hx => hrest x (List.mem_cons_of_mem _ hx)
      exact ih (r :: acc) rs hacc2 hrs2 p hp c hcp

theorem splitOnDoubleNewline_subset :
    ∀ (s : List Char), ∀ p ∈ splitOnDoubleNewline s, ∀ c ∈ p, c ∈ s := by
  intro s
  induction s using splitOnDoubleNewline.induct with
  | case1 =>
    intro p hp c hcp
    simp only [splitOnDoubleNewline, List.mem_singleton] at hp
    subst hp
    cases hcp
  | case2 rest ih =>
    intro p hp c hcp
    simp only [splitOnDoubleNewline, List.mem_cons] at hp
    rcases hp with hp | hp
    · subst hp; cases hcp
    · have := ih p hp c hcp
      simp [this]
  | case3 c0 rest hne q qs heq ih =>
    intro p hp c hcp
    simp only [splitOnDoubleNewline.eq_3 c0 rest hne, heq, List.mem_cons] at hp
    rcases hp with hp | hp
    · subst hp
      rcases List.mem_cons.mp hcp with h | h
      · subst h; exact List.mem_cons_self c rest
      · exact List.mem_cons_of_mem _ (ih q (by rw [heq]; simp) c h)
    · exact List.mem_cons_of_mem _ (ih p (by rw [heq]; simp [hp]) c hcp)
  | case4 c0 rest hne heq ih =>
    intro p hp c hcp
    simp only [splitOnDoubleNewline.eq_3 c0 rest hne, heq, List.mem_singleton] at hp
    subst hp
    have : c = c0 := by simpa using hcp
    subst this
    exact List.mem_cons_self c rest

theorem split_into_sentences_allspace (text : List Char)
    (h : ∀ c ∈ text, pyIsSpace c = true) : split_into_sentences text = [] := by
  rw [split_into_sentences, List.flatMap_eq_nil_iff]
  intro piece hpiece
  rw [List.filter_eq_nil_iff]
  intro part hpart
  rw [List.mem_map] at hpart
  obtain ⟨q, hq, hq2⟩ := hpart
  have hqall : ∀ c ∈ q, pyIsSpace c = true := fun c hc =>
    regexSplit_allspace text.length [] text (by simp) h piece hpiece c
      (splitOnDoubleNewline_subset piece q hq c hc)
  have : strip q = [] := (strip_eq_nil_iff q).mpr hqall
  rw [← hq2, this]
  simp

theorem strip_join_ne (cur : List (List Char)) (hne : cur ≠ [])
    (hgood : ∀ e ∈ cur, GoodPiece e) : strip (joinSpace cur) ≠ [] := by
  obtain ⟨hzne, hzlast⟩ := joinSpace_last cur hne hgood
  intro h0
  have hall := (strip_eq_nil_iff _).mp h0
  cases hzl : (joinSpace cur).getLast? with
  | none => exact hzne (List.getLast?_eq_none_iff.mp hzl)
  | some c =>
    have hcz : c ∈ joinSpace cur := getLast_mem_of_eq_some _ c hzl
    have h1 := hzlast c hzl
    rw [hall c hcz] at h1
    exact Bool.true_eq_false.mp h1

theorem strip_join_ends_with_last (cur : List (List Char)) (l : List Char)
    (hl : cur.getLast? = some l) (hgood : ∀ e ∈ cur, GoodPiece e)
    (hgl : GoodSentence l) : l <:+ strip (joinSpace cur) := by
  rcases List.eq_nil_or_concat cur with h | ⟨ys, l2, hd⟩
  · rw [h] at hl; simp at hl
  · rw [List.concat_eq_append] at hd
    have hl2 : l2 = l := by
      rw [hd, List.getLast?_concat] at hl
      simpa using hl
    subst hl2
    obtain ⟨pre, hpre⟩ := joinSpace_snoc_ex ys l2
    have hcne : cur ≠ [] := by rw [hd]; simp
    have hjl := joinSpace_last cur hcne hgood
    have hstrip : strip (joinSpace cur) = lstrip (joinSpace cur) :=
      strip_eq_lstrip_of_last _ hjl.2
    rw [hstrip, hd, hpre]
    obtain ⟨u, hu⟩ := suffix_lstrip_append pre l2 hgl.1 hgl.2.1
    exact ⟨u, hu.symm⟩

theorem chunk_step_inv_c6 (tc k : Nat) (SS : List (List Char)) (st : ChunkAccState)
    (s : List Char) (hsSS : s ∈ SS) (hgs : GoodSentence s) (hinv : chunkInvC6 SS st) :
    chunkInvC6 SS (chunk_step tc k st s) ∧
    (∀ x, GoodSentence x → PlacedIn st x → PlacedIn (chunk_step tc k st s) x) ∧
    PlacedIn (chunk_step tc k st s) s := by
  obtain ⟨hchunks, hlast, hpieces⟩ := hinv
  by_cases hcond : st.current_length + s.length > tc ∧ st.current_chunk ≠ []
  · have hov := overlap_tail_eq st.current_chunk k hcond.2 hpieces
    have hovne : get_overlap_text st.current_chunk k ≠ [] := hov.2.1
    rw [chunk_step_flush tc k st s hcond hovne]
    obtain ⟨l, hl⟩ : ∃ l, st.current_chunk.getLast? = some l := by
      cases hcc : st.current_chunk.getLast? with
      | none => exact absurd (List.getLast?_eq_none_iff.mp hcc) hcond.2
      | some a => exact ⟨a, rfl⟩
    obtain ⟨hlSS, hgl⟩ := hlast l (by rw [Option.mem_def, hl])
    refine ⟨⟨?_, ?_, ?_⟩, ?_, ?_⟩
    · intro ch hch
      rcases List.mem_append.mp hch with h | h
      · exact hchunks ch h
      · have hch2 : ch = ⟨strip (joinSpace st.current_chunk), st.chunk_start⟩ := by
          simpa using h
        subst hch2
        exact ⟨l, hlSS, hgl.1, strip_join_ends_with_last _ l hl hpieces hgl⟩
    · intro l2 hl2
      simp only [Option.mem_def, List.getLast?_cons_cons, List.getLast?_singleton,
        Option.some.injEq] at hl2
      subst hl2
      exact ⟨hsSS, hgs⟩
    · intro e he
      rcases List.mem_cons.mp he with h | h
      · rw [h]; exact hov.2
      · have : e = s := by simpa using h
        rw [this]; exact ⟨hgs.1, hgs.2.2⟩
    · intro x hgx hpl
      rcases hpl with ⟨ch, hch, hinf⟩ | hx
      · exact Or.inl ⟨ch, List.mem_append_left _ hch, hinf⟩
      · refine Or.inl ⟨⟨strip (joinSpace st.current_chunk), st.chunk_start⟩,
          List.mem_append_right _ (by simp), ?_⟩
        exact infix_strip_of_good x _ hgx (infix_of_mem_joinSpace _ x hx)
    · exact Or.inr (by simp)
  · rw [chunk_step_no_flush tc k st s hcond]
    refine ⟨⟨hchunks, ?_, ?_⟩, ?_, ?_⟩
    · intro l2 hl2
      simp only [Option.mem_def, List.getLast?_concat] at hl2
      have hls : s = l2 := by simpa using hl2
      rw [← hls]
      exact ⟨hsSS, hgs⟩
    · intro e he
      rcases List.mem_append.mp he with h | h
      · exact hpieces e h
      · have : e = s := by simpa using h
        rw [this]; exact ⟨hgs.1, hgs.2.2⟩
    · intro x hgx hpl
      rcases hpl with ⟨ch, hch, hinf⟩ | hx
      · exact Or.inl ⟨ch, hch, hinf⟩
      · exact Or.inr (List.mem_append_left _ hx)
    · exact Or.inr (List.mem_append_right _ (by simp))

theorem chunk_fold_inv_c6 (tc k : Nat) (SS : List (List Char)) :
    ∀ (ss : List (List Char)) (st : ChunkAccState),
    (∀ s ∈ ss, s ∈ SS ∧ GoodSentence s) → chunkInvC6 SS st →
    chunkInvC6 SS (ss.foldl (chunk_step tc k) st) ∧
    (∀ x, GoodSentence x → PlacedIn st x →
        PlacedIn (ss.foldl (chunk_step tc k) st) x) ∧
    (∀ s ∈ ss, PlacedIn (ss.foldl (chunk_step tc k) st) s) := by
  intro ss
  induction ss with
  | nil =>
    intro st _ hinv
    exact ⟨hinv, fun x _ h => h, by intro s hs; cases hs⟩
  | cons s ss ih =>
    intro st hgood hinv
    obtain ⟨hsSS, hgs⟩ := hgood s (List.mem_cons_self _ _)
    have hstep := chunk_step_inv_c6 tc k SS st s hsSS hgs hinv
    have hih := ih (chunk_step tc k st s)
      (fun x hx => hgood x (List.mem_cons_of_mem _ hx)) hstep.1
    rw [List.foldl_cons]
    refine ⟨hih.1, ?_, ?_⟩
    · intro x hgx hpl
      exact hih.2.1 x hgx (hstep.2.1 x hgx hpl)
    · intro s2 hs2
      rcases List.mem_cons.mp hs2 with h | h
      · subst h
        exact hih.2.1 s2 hgs hstep.2.2
      · exact hih.2.2 s2 h

/-- C6: the chunker never places a chunk boundary inside a sentence —
every stored chunk ends with (has as a suffix) one of the sentences the
splitter produced, and every sentence, however long relative to the
target size, appears whole (as a contiguous infix) inside some single
chunk. -/
theorem chunk_text_never_splits_sentences (tt ot : Nat) (text : List Char) :
    (∀ ch ∈ chunk_text tt ot text,
        ∃ s, s ∈ split_into_sentences text ∧ s ≠ [] ∧ s <:+ ch.content) ∧
    (∀ s ∈ split_into_sentences text,
        ∃ ch, ch ∈ chunk_text tt ot text ∧ s <:+: ch.content) := by
  simp only [chunk_text]
  by_cases hguard : text = [] ∨ strip text = []
  · rw [if_pos hguard]
    have hsent : split_into_sentences text = [] := by
      apply split_into_sentences_allspace
      rcases hguard with h | h
      · intro c hc; rw [h] at hc; cases hc
      · exact (strip_eq_nil_iff text).mp h
    constructor
    · intro ch hch; cases hch
    · intro s hs
      rw [hsent] at hs
      cases hs
  · rw [if_neg hguard]
    have hsent := split_into_sentences_good text
    have hinv0 : chunkInvC6 (split_into_sentences text) ⟨[], [], 0, 0, 0⟩ := by
      refine ⟨?_, ?_, ?_⟩
      · intro ch hch; cases hch
      · intro l hl
        simp [Option.mem_def] at hl
      · simp
    have hfold := chunk_fold_inv_c6 (tt * chars_per_token) (ot * chars_per_token)
      (split_into_sentences text) (split_into_sentences text) ⟨[], [], 0, 0, 0⟩
      (fun s hs => ⟨hs, hsent s hs⟩) hinv0
    obtain ⟨⟨hchunks, hlast, hpieces⟩, _, hplaced⟩ := hfold
    by_cases hcur : ((split_into_sentences text).foldl
        (chunk_step (tt * chars_per_token) (ot * chars_per_token))
        ⟨[], [], 0, 0, 0⟩).current_chunk ≠ []
    · rw [if_pos hcur]
      have hstripne : strip (joinSpace ((split_into_sentences text).foldl
          (chunk_step (tt * chars_per_token) (ot * chars_per_token))
          ⟨[], [], 0, 0, 0⟩).current_chunk) ≠ [] :=
        strip_join_ne _ hcur hpieces
      rw [if_pos hstripne]
      obtain ⟨l, hl⟩ : ∃ l, ((split_into_sentences text).foldl
          (chunk_step (tt * chars_per_token) (ot * chars_per_token))
          ⟨[], [], 0, 0, 0⟩).current_chunk.getLast? = some l := by
        cases hcc : ((split_into_sentences text).foldl
            (chunk_step (tt * chars_per_token) (ot * chars_per_token))
            ⟨[], [], 0, 0, 0⟩).current_chunk.getLast? with
        | none => exact absurd (List.getLast?_eq_none_iff.mp hcc) hcur
        | some a => exact ⟨a, rfl⟩
      obtain ⟨hlSS, hgl⟩ := hlast l (by rw [Option.mem_def, hl])
      constructor
      · intro ch hch
        rcases List.mem_append.mp hch with h | h
        · exact hchunks ch h
        · have hch2 : ch = ⟨strip (joinSpace ((split_into_sentences text).foldl
              (chunk_step (tt * chars_per_token) (ot * chars_per_token))
              ⟨[], [], 0, 0, 0⟩).current_chunk),
              ((split_into_sentences text).foldl
              (chunk_step (tt * chars_per_token) (ot * chars_per_token))
              ⟨[], [], 0, 0, 0⟩).chunk_start⟩ := by simpa using h
          subst hch2
          exact ⟨l, hlSS, hgl.1, strip_join_ends_with_last _ l hl hpieces hgl⟩
      · intro s hs
        rcases hplaced s hs with ⟨ch, hch, hinf⟩ | hx
        · exact ⟨ch, List.mem_append_left _ hch, hinf⟩
        · refine ⟨_, List.mem_append_right _ (List.mem_singleton_self _), ?_⟩
          exact infix_strip_of_good s _ (hsent s hs) (infix_of_mem_joinSpace _ s hx)
    · rw [if_neg hcur]
      refine ⟨fun ch hch => hchunks ch hch, ?_⟩
      intro s hs
      rcases hplaced s hs with ⟨ch, hch, hinf⟩ | hx
      · exact ⟨ch, hch, hinf⟩
      · rw [not_not.mp hcur] at hx
        cases hx

/-- Witness for C6 at a concrete input: `"Zw."` is one of the sentences of
the counterexample text, and some chunk contains it whole. -/
theorem chunk_text_never_splits_sentences_witness :
    (("Zw.").toList ∈ split_into_sentences overlap_cx_text) ∧
    ∃ ch, ch ∈ chunk_text 2 1 overlap_cx_text ∧ ("Zw.").toList <:+: ch.content :=
  ⟨by decide,
    (chunk_text_never_splits_sentences 2 1 overlap_cx_text).2
      (("Zw.").toList) (by decide)⟩

end SageMind
